import Mathlib

/-!
# Verification of the SoundClone key-estimation core

Shallow embedding of the `KeyEstimator` dataclass from
`src/src/python/harmonic-analyzer.py` (the "richest" variant, which the spec
fixes as ground truth), together with proofs of the spec's claims about it.

Floating-point arithmetic is idealised as exact real arithmetic (`ℝ`),
with `Real.sqrt` for the square roots taken by `scipy.stats.zscore`
(population standard deviation), `scipy.linalg.norm` (Euclidean / Frobenius
norm) and friends.  The chroma inputs the service can actually receive are
machine floats, i.e. rational numbers, so concrete inputs are given as
integer/rational vectors cast into `ℝ`.
-/

set_option maxHeartbeats 1000000
set_option maxRecDepth 100000

noncomputable section

open Finset

/-- Population mean of a vector, as computed by `numpy` (`v.mean()`). -/
def npMean {n : ℕ} (v : Fin n → ℝ) : ℝ := (∑ i, v i) / n

/-- Population variance (`ddof = 0`, the `scipy.stats.zscore` default). -/
def npVar {n : ℕ} (v : Fin n → ℝ) : ℝ := (∑ i, (v i - npMean v) ^ 2) / n

/-- Population standard deviation (`v.std()`). -/
def npStd {n : ℕ} (v : Fin n → ℝ) : ℝ := Real.sqrt (npVar v)

/-- The function `scipy.stats.zscore` on a 1-D array: subtract the mean, divide by the
population standard deviation. -/
def zscore {n : ℕ} (v : Fin n → ℝ) : Fin n → ℝ := fun i => (v i - npMean v) / npStd v

/-- The function `scipy.linalg.norm` on a 1-D array: the Euclidean norm. -/
def vecNorm {n : ℕ} (v : Fin n → ℝ) : ℝ := Real.sqrt (∑ i, v i ^ 2)

/-- The function `scipy.stats.zscore` on a 2-D array (default `axis = 0`): standardise
each column. -/
def zscoreMat {n : ℕ} (M : Matrix (Fin n) (Fin n) ℝ) : Matrix (Fin n) (Fin n) ℝ :=
  Matrix.of fun i j => zscore (fun k => M k j) i

/-- The function `scipy.linalg.norm` on a 2-D array: the Frobenius norm. -/
def matNorm {n : ℕ} (M : Matrix (Fin n) (Fin n) ℝ) : ℝ :=
  Real.sqrt (∑ i, ∑ j, M i j ^ 2)

/-- Row-major flattening of a square matrix, as done by `np.ravel` (which
`scipy.linalg.circulant` applies to a non-1-D argument). -/
def ravel {n : ℕ} (M : Matrix (Fin n) (Fin n) ℝ) (k : Fin (n * n)) : ℝ :=
  have hn : 0 < n := by
    rcases Nat.eq_zero_or_pos n with h | h
    · subst h; exact absurd k.isLt (by simp)
    · exact h
  M ⟨k.val / n, Nat.div_lt_of_lt_mul k.isLt⟩
    ⟨k.val % n, Nat.mod_lt _ hn⟩

/- `scipy.linalg.circulant` agrees with Mathlib's `Matrix.circulant`:
`(circulant c) i j = c (i - j)`, i.e. column `j` is `c` cyclically shifted
down by `j` positions. -/

/-- The seven diatonic modes, in the declaration order of the
`mode_weights` dict. -/
inductive Mode where
  | ionian | dorian | phrygian | lydian | mixolydian | aeolian | locrian
deriving DecidableEq, Repr

/-- The dict keys, in insertion order. -/
def Mode.name : Mode → String
  | .ionian => "ionian"
  | .dorian => "dorian"
  | .phrygian => "phrygian"
  | .lydian => "lydian"
  | .mixolydian => "mixolydian"
  | .aeolian => "aeolian"
  | .locrian => "locrian"

/-- Iteration order of the `mode_weights` dict (Python dicts preserve
insertion order). -/
def modeList : List Mode :=
  [.ionian, .dorian, .phrygian, .lydian, .mixolydian, .aeolian, .locrian]

namespace KeyEstimator

/-- The raw Krumhansl–Schmuckler weight vectors from the `mode_weights`
class attribute (exact decimal constants). -/
def mode_weights : Mode → Fin 12 → ℚ
  | .ionian => ![6.35, 2.23, 3.48, 2.33, 4.38, 4.09, 2.52, 5.19, 2.39, 3.66, 2.29, 2.88]
  | .dorian => ![6.33, 2.68, 3.52, 5.38, 2.60, 3.53, 2.69, 1.66, 3.69, 2.59, 3.59, 4.75]
  | .phrygian => ![6.59, 2.52, 3.68, 5.06, 1.03, 4.60, 3.52, 5.35, 3.54, 4.90, 1.75, 1.80]
  | .lydian => ![6.50, 2.33, 3.52, 2.68, 3.59, 2.59, 3.66, 5.17, 3.63, 2.59, 2.70, 3.33]
  | .mixolydian => ![6.47, 2.37, 3.50, 2.52, 3.64, 2.50, 3.58, 2.64, 3.68, 2.50, 2.60, 3.38]
  | .aeolian => ![6.39, 2.55, 3.77, 3.98, 2.71, 3.91, 2.92, 2.29, 3.70, 3.27, 3.16, 6.20]
  | .locrian => ![6.17, 2.74, 3.98, 2.69, 3.66, 3.68, 2.90, 2.42, 2.60, 2.70, 2.88, 6.59]

/-- The raw weight vectors as real vectors. -/
def wR (m : Mode) : Fin 12 → ℝ := fun i => (mode_weights m i : ℝ)

/-- Line 53 of `__post_init__`: `scipy.stats.zscore(weights)` of `__post_init__`. -/
def zscored_weights (m : Mode) : Fin 12 → ℝ := zscore (wR m)

/-- Line 54: `self.mode_weight_norms[mode] = scipy.linalg.norm(...)`. -/
def mode_weight_norms (m : Mode) : ℝ := vecNorm (zscored_weights m)

/-- Line 55: `self.mode_weights[mode] = scipy.linalg.circulant(...)`. -/
def weight_table (m : Mode) : Matrix (Fin 12) (Fin 12) ℝ :=
  Matrix.circulant (zscored_weights m)

/-- The embedding of `np.argmax` over a 12-vector: index of the first occurrence of the
maximum (left-to-right scan, replace only on strict increase). -/
def argmax12 {α : Type} [LinearOrder α] (f : Fin 12 → α) : Fin 12 :=
  (List.finRange 12).foldl (fun b i => if f b < f i then i else b) 0

/-- The `note_names_simple` table from `__call__`. -/
def note_names_simple (i : Fin 12) : String :=
  match i.val with
  | 0 => "C"
  | 1 => "C#"
  | 2 => "D"
  | 3 => "D#"
  | 4 => "E"
  | 5 => "F"
  | 6 => "F#"
  | 7 => "G"
  | 8 => "G#"
  | 9 => "A"
  | 10 => "A#"
  | _ => "B"

/-- The display name: `'major' if mode == 'ionian' else 'minor' if mode == 'aeolian' else mode`. -/
def mode_simple (m : Mode) : String :=
  if m = Mode.ionian then "major" else if m = Mode.aeolian then "minor" else m.name

/-- One entry of the `all_estimates` list (the per-mode result dict). -/
structure Estimate where
  mode : String
  modeSimple : String
  key_index : ℕ
  key : String
  correlation : ℝ
  full_name : String
  coefficients : List ℝ

instance : Inhabited Estimate :=
  ⟨{ mode := "", modeSimple := "", key_index := 0, key := "", correlation := 0,
     full_name := "", coefficients := [] }⟩

/-- Line 68: `coefficients[mode] = weights.T.dot(x) / self.mode_weight_norms[mode] / x_norm`
(line 68), as a function of the already-z-scored input `z` (the reassigned
`x` of line 58): entry `r` is `(Wᵀ z)ᵣ / ‖zw‖ / ‖z‖`. -/
def coefficientsZ (m : Mode) (z : Fin 12 → ℝ) : Fin 12 → ℝ := fun r =>
  (∑ i, (weight_table m).transpose r i * z i) / mode_weight_norms m / vecNorm z

/-- Per-mode coefficient vector for a raw input `x` (lines 58 and 68). -/
def coefficients (m : Mode) (x : Fin 12 → ℝ) : Fin 12 → ℝ :=
  coefficientsZ m (zscore x)

/-- Line 71: `best_key_idx = np.argmax(coefficients[mode])`. -/
def best_key_idx (m : Mode) (x : Fin 12 → ℝ) : Fin 12 :=
  argmax12 (coefficients m x)

/-- Line 72: `best_correlation = coefficients[mode][best_key_idx]`. -/
def best_correlation (m : Mode) (x : Fin 12 → ℝ) : ℝ :=
  coefficients m x (best_key_idx m x)

/-- The dict appended to `all_estimates` for mode `m` (lines 77–85),
as a function of the z-scored input. -/
def estimateZ (m : Mode) (z : Fin 12 → ℝ) : Estimate :=
  { mode := m.name
    modeSimple := mode_simple m
    key_index := (argmax12 (coefficientsZ m z)).val
    key := note_names_simple (argmax12 (coefficientsZ m z))
    correlation := coefficientsZ m z (argmax12 (coefficientsZ m z))
    full_name := note_names_simple (argmax12 (coefficientsZ m z)) ++ " " ++ mode_simple m
    coefficients := (List.finRange 12).map (coefficientsZ m z) }

/-- The `all_estimates` list before sorting, built in dict iteration
order (line 67), as a function of the z-scored input. -/
def all_estimatesZ (z : Fin 12 → ℝ) : List Estimate :=
  modeList.map (fun m => estimateZ m z)

/-- The list `all_estimates` before sorting, for a raw input. -/
def all_estimates (x : Fin 12 → ℝ) : List Estimate :=
  all_estimatesZ (zscore x)

/-- The comparison used by `all_estimates.sort(key=lambda x: x['correlation'],
reverse=True)`: `a` may precede `b` iff `a`'s correlation is ≥ `b`'s. -/
def corrGE (a b : Estimate) : Prop := b.correlation ≤ a.correlation

instance : DecidableRel corrGE := fun a b => Real.decidableLE _ _

instance : IsTotal Estimate corrGE := ⟨fun a b => le_total b.correlation a.correlation⟩

instance : IsTrans Estimate corrGE := ⟨fun _ _ _ h h' => le_trans h' h⟩

/-- Line 88, `all_estimates.sort(key=..., reverse=True)`: Python's sort is
a stable sort; any stable sort by the same total preorder computes the same
list, so it is modelled by stable insertion sort. -/
def sortedEstimatesZ (z : Fin 12 → ℝ) : List Estimate :=
  List.insertionSort corrGE (all_estimatesZ z)

/-- The sorted estimate list returned by `__call__`, for a raw input. -/
def sorted_estimates (x : Fin 12 → ℝ) : List Estimate :=
  sortedEstimatesZ (zscore x)

/-- Line 95: `best_estimate = all_estimates[0]` after the sort. -/
def best_estimate (x : Fin 12 → ℝ) : Estimate :=
  (sorted_estimates x).headI

/-- The value returned by `__call__` (line 104), as a function of the
z-scored input: `(best full name, best correlation, sorted estimates)`. -/
def callZ (z : Fin 12 → ℝ) : String × ℝ × List Estimate :=
  ((List.insertionSort corrGE (all_estimatesZ z)).headI.full_name,
   (List.insertionSort corrGE (all_estimatesZ z)).headI.correlation,
   List.insertionSort corrGE (all_estimatesZ z))

/-- The method `KeyEstimator.__call__` on a 12-bin chroma vector: line 58 reassigns
`x = scipy.stats.zscore(x)` and everything afterwards uses only the
z-scored vector. -/
def call (x : Fin 12 → ℝ) : String × ℝ × List Estimate :=
  callZ (zscore x)

/-- The `numpy` error raised by `weights.T.dot(x)` when the argument's
shape does not match (the only length check anywhere in `__call__`). -/
inductive PyError where
  | valueError
deriving DecidableEq, Repr

/-- The method `__call__` on an arbitrary-length float list, as the Python code
executes it: `zscore` and `norm` happily process any length, and the
first (and only) thing that fails on a non-12 input is the shape check
inside the `numpy` dot product, which raises an untyped `ValueError`.
There is no `InvalidInputLength` and no `FlatChromaVector` check in the
source. -/
def callList (x : List ℝ) : Except PyError (String × ℝ × List Estimate) :=
  if h : x.length = 12 then
    Except.ok (call (fun i : Fin 12 => x.get (Fin.cast h.symm i)))
  else
    Except.error PyError.valueError

/-! ## A rational/integer computation layer

The only irrational quantities in the pipeline are the standard deviations
`npStd`.  Every comparison the algorithm performs reduces to comparisons of
integer quantities, which lets concrete runs be decided by the kernel.
`w100` is the weight table scaled by 100 (making it integral), `devInt` is
the deviation from the mean scaled by `12`, `iVar` the variance scaled by
`12³`, and `iP` the correlation numerator `SR` scaled by `14400`. -/

def w100 : Mode → Fin 12 → ℤ
  | .ionian => ![635, 223, 348, 233, 438, 409, 252, 519, 239, 366, 229, 288]
  | .dorian => ![633, 268, 352, 538, 260, 353, 269, 166, 369, 259, 359, 475]
  | .phrygian => ![659, 252, 368, 506, 103, 460, 352, 535, 354, 490, 175, 180]
  | .lydian => ![650, 233, 352, 268, 359, 259, 366, 517, 363, 259, 270, 333]
  | .mixolydian => ![647, 237, 350, 252, 364, 250, 358, 264, 368, 250, 260, 338]
  | .aeolian => ![639, 255, 377, 398, 271, 391, 292, 229, 370, 327, 316, 620]
  | .locrian => ![617, 274, 398, 269, 366, 368, 290, 242, 260, 270, 288, 659]

def devInt (v : Fin 12 → ℤ) (i : Fin 12) : ℤ := 12 * v i - ∑ j, v j

def iVar (v : Fin 12 → ℤ) : ℤ := ∑ i, devInt v i ^ 2

def iP (m : Mode) (v : Fin 12 → ℤ) (r : Fin 12) : ℤ :=
  ∑ i, devInt (w100 m) (i - r) * devInt v i

def iBestKey (m : Mode) (v : Fin 12 → ℤ) : Fin 12 := argmax12 (iP m v)

/-- The numerator of the correlation: the sum of deviation products between
the (rotated) profile and the input. -/
def SR (m : Mode) (x : Fin 12 → ℝ) (r : Fin 12) : ℝ :=
  ∑ i, (wR m (i - r) - npMean (wR m)) * (x i - npMean x)

/-- A concrete non-flat test vector: energy concentrated in pitch class C. -/
def e0Int : Fin 12 → ℤ := fun i => if i = 0 then 1 else 0

/-- The same test vector over `ℝ`. -/
def e0R : Fin 12 → ℝ := fun j => ((e0Int j : ℤ) : ℝ)

/-- Cyclic rotation of a chroma vector by `k` positions (the `np.roll`
convention: entry `i` of the rotated vector is entry `i - k` of the
original, so the energy pattern moves up by `k` semitones). -/
def rot12 (k : Fin 12) (x : Fin 12 → ℝ) : Fin 12 → ℝ := fun i => x (i - k)

/-- A chroma vector invariant under rotation by 6 (energy in pitch classes
C and F#). -/
def x6Int : Fin 12 → ℤ := fun i => if i = 0 ∨ i = 6 then 1 else 0

/-- The same vector over `ℝ`. -/
def x6R : Fin 12 → ℝ := fun j => ((x6Int j : ℤ) : ℝ)

/-- The ionian raw weight vector, scaled by 100 to be integral. -/
def xIon : Fin 12 → ℝ := fun j => ((w100 Mode.ionian j : ℤ) : ℝ)

/-- A numpy array as stored in the class-level `mode_weights` dict: a 1-D
vector or a square matrix (the dict starts as vectors and `__post_init__`
overwrites them with matrices). -/
inductive NpVal where
  | vec : (n : ℕ) → (Fin n → ℝ) → NpVal
  | mat : (n : ℕ) → Matrix (Fin n) (Fin n) ℝ → NpVal

/-- The function `scipy.stats.zscore` on a stored value (`axis = 0` on matrices). -/
def zscoreNp : NpVal → NpVal
  | .vec n v => .vec n (zscore v)
  | .mat n M => .mat n (zscoreMat M)

/-- The function `scipy.linalg.norm` on a stored value: Euclidean norm of a vector,
Frobenius norm of a matrix. -/
def normNp : NpVal → ℝ
  | .vec _ v => vecNorm v
  | .mat _ M => matNorm M

/-- The function `scipy.linalg.circulant` on a stored value: it ravels a non-1-D
argument to a flat vector and builds the circulant matrix of that. -/
def circulantNp : NpVal → NpVal
  | .vec n v => .mat n (Matrix.circulant v)
  | .mat n M => .mat (n * n) (Matrix.circulant (ravel M))

/-- The class-level mutable state of `KeyEstimator`: the shared
`mode_weights` dict and the shared `mode_weight_norms` dict (initially
empty, modelled as `none`). -/
structure TableState where
  weights : Mode → NpVal
  norms : Mode → Option ℝ

/-- The state at class-definition time: the raw weight vectors, no norms. -/
def initState : TableState :=
  { weights := fun m => NpVal.vec 12 (wR m), norms := fun _ => none }

/-- One run of `__post_init__` (lines 51–55): for each mode, z-score the
*currently stored* value in place, store its norm, then replace the stored
value by its circulant — all on the shared class-level dicts. -/
def postInit (s : TableState) : TableState :=
  { weights := fun m => circulantNp (zscoreNp (s.weights m))
    norms := fun m => some (normNp (zscoreNp (s.weights m))) }

end KeyEstimator

/-! ## Basic facts about the numpy primitives -/

theorem npVar_nonneg {n : ℕ} (v : Fin n → ℝ) : 0 ≤ npVar v := by
  unfold npVar
  have h1 : 0 ≤ ∑ i, (v i - npMean v) ^ 2 := Finset.sum_nonneg fun i _ => sq_nonneg _
  positivity

theorem npStd_nonneg {n : ℕ} (v : Fin n → ℝ) : 0 ≤ npStd v := Real.sqrt_nonneg _

theorem npStd_pos {n : ℕ} {v : Fin n → ℝ} (h : npVar v ≠ 0) : 0 < npStd v :=
  Real.sqrt_pos.mpr (lt_of_le_of_ne (npVar_nonneg v) (Ne.symm h))

theorem npStd_sq {n : ℕ} {v : Fin n → ℝ} : npStd v ^ 2 = npVar v :=
  Real.sq_sqrt (npVar_nonneg v)

/-- Sum of deviations from the mean vanishes. -/
theorem sum_sub_npMean {n : ℕ} (v : Fin n → ℝ) : ∑ i, (v i - npMean v) = 0 := by
  rcases Nat.eq_zero_or_pos n with h | h
  · subst h; simp
  · have hn : (n : ℝ) ≠ 0 := Nat.cast_ne_zero.mpr h.ne'
    simp only [Finset.sum_sub_distrib, Finset.sum_const, Finset.card_univ, Fintype.card_fin,
      npMean, nsmul_eq_mul]
    field_simp

theorem sum_zscore {n : ℕ} (v : Fin n → ℝ) : ∑ i, zscore v i = 0 := by
  unfold zscore
  rw [← Finset.sum_div, sum_sub_npMean, zero_div]

theorem npMean_zscore {n : ℕ} (v : Fin n → ℝ) : npMean (zscore v) = 0 := by
  unfold npMean
  rw [sum_zscore, zero_div]

theorem sum_zscore_sq {n : ℕ} {v : Fin n → ℝ} (h : npVar v ≠ 0) :
    ∑ i, zscore v i ^ 2 = n := by
  unfold zscore
  have hσ : npStd v ^ 2 = npVar v := npStd_sq
  have hσ0 : npStd v ≠ 0 := (npStd_pos h).ne'
  have : ∑ i, ((v i - npMean v) / npStd v) ^ 2
      = (∑ i, (v i - npMean v) ^ 2) / npVar v := by
    rw [← hσ]
    simp only [div_pow]
    rw [Finset.sum_div]
  rw [this]
  have hvar : (∑ i, (v i - npMean v) ^ 2) = n * npVar v := by
    unfold npVar
    rcases Nat.eq_zero_or_pos n with h0 | h0
    · exfalso; apply h; subst h0; unfold npVar; simp
    · field_simp
  rw [hvar, mul_div_assoc, div_self h, mul_one]

theorem npVar_zscore {n : ℕ} {v : Fin n → ℝ} (hn : (n : ℝ) ≠ 0) (h : npVar v ≠ 0) :
    npVar (zscore v) = 1 := by
  unfold npVar
  rw [npMean_zscore]
  simp only [sub_zero]
  rw [sum_zscore_sq h, div_self hn]

theorem vecNorm_zscore {n : ℕ} {v : Fin n → ℝ} (h : npVar v ≠ 0) :
    vecNorm (zscore v) = Real.sqrt n := by
  unfold vecNorm
  rw [sum_zscore_sq h]

/-- Rotating a vector cyclically permutes it, so sums are unchanged. -/
theorem sum_rotate {n : ℕ} [NeZero n] (f : Fin n → ℝ) (k : Fin n) :
    ∑ i, f (i - k) = ∑ i, f i :=
  Fintype.sum_equiv (Equiv.subRight k) _ _ fun _ => rfl

theorem npMean_rotate {n : ℕ} [NeZero n] (v : Fin n → ℝ) (k : Fin n) :
    npMean (fun i => v (i - k)) = npMean v := by
  unfold npMean
  rw [sum_rotate]

theorem npVar_rotate {n : ℕ} [NeZero n] (v : Fin n → ℝ) (k : Fin n) :
    npVar (fun i => v (i - k)) = npVar v := by
  unfold npVar
  rw [npMean_rotate]
  congr 1
  exact sum_rotate (fun i => (v i - npMean v) ^ 2) k

theorem zscore_rotate {n : ℕ} [NeZero n] (v : Fin n → ℝ) (k : Fin n) :
    zscore (fun i => v (i - k)) = fun i => zscore v (i - k) := by
  funext i
  unfold zscore npStd
  rw [npMean_rotate, npVar_rotate]

/-- Z-scoring is invariant under a positive affine change of the input:
`zscore (a • v + b) = zscore v` for `a > 0`. -/
theorem zscore_affine {n : ℕ} {a : ℝ} (ha : 0 < a) (b : ℝ) (v : Fin n → ℝ) :
    zscore (fun i => a * v i + b) = zscore v := by
  rcases Nat.eq_zero_or_pos n with h0 | h0
  · subst h0; funext i; exact i.elim0
  have hn : (n : ℝ) ≠ 0 := Nat.cast_ne_zero.mpr h0.ne'
  have hmean : npMean (fun i => a * v i + b) = a * npMean v + b := by
    unfold npMean
    rw [Finset.sum_add_distrib, ← Finset.mul_sum]
    simp only [Finset.sum_const, Finset.card_univ, Fintype.card_fin, nsmul_eq_mul]
    field_simp
    ring
  have hvar : npVar (fun i => a * v i + b) = a ^ 2 * npVar v := by
    unfold npVar
    rw [hmean]
    rw [show (∑ i, ((fun i => a * v i + b) i - (a * npMean v + b)) ^ 2)
        = ∑ i, a ^ 2 * (v i - npMean v) ^ 2 from Finset.sum_congr rfl fun i _ => by ring]
    rw [← Finset.mul_sum, mul_div_assoc]
  have hstd : npStd (fun i => a * v i + b) = a * npStd v := by
    unfold npStd
    rw [hvar, Real.sqrt_mul (sq_nonneg a), Real.sqrt_sq ha.le]
  funext i
  unfold zscore
  rw [hmean, hstd]
  rcases eq_or_ne (npStd v) 0 with h | h
  · rw [h, mul_zero, div_zero, div_zero]
  · rw [show a * v i + b - (a * npMean v + b) = a * (v i - npMean v) by ring,
      mul_div_mul_left _ _ ha.ne']

/-- A vector that is already standardised (mean 0, variance 1) is a fixed
point of `zscore`. -/
theorem zscore_of_standardised {n : ℕ} {v : Fin n → ℝ}
    (hm : npMean v = 0) (hv : npVar v = 1) : zscore v = v := by
  funext i
  unfold zscore npStd
  rw [hm, hv, Real.sqrt_one, sub_zero, div_one]

/-! ## Properties of `argmax12` (the embedding of `np.argmax`) -/

namespace KeyEstimator

/-- The accumulator of the `argmax12` fold never decreases in `f`-value and
dominates every scanned index. -/
theorem foldl_argmax_ge {α : Type} [LinearOrder α] (f : Fin 12 → α) :
    ∀ (l : List (Fin 12)) (b : Fin 12),
      f b ≤ f (l.foldl (fun b i => if f b < f i then i else b) b) ∧
      ∀ i ∈ l, f i ≤ f (l.foldl (fun b i => if f b < f i then i else b) b) := by
  intro l
  induction l with
  | nil => intro b; exact ⟨le_refl _, by simp⟩
  | cons a l ih =>
    intro b
    simp only [List.foldl_cons, List.mem_cons]
    have h1 : f b ≤ f (if f b < f a then a else b) := by
      by_cases hc : f b < f a
      · rw [if_pos hc]; exact hc.le
      · rw [if_neg hc]
    have h2 : f a ≤ f (if f b < f a then a else b) := by
      by_cases hc : f b < f a
      · rw [if_pos hc]
      · rw [if_neg hc]; exact not_lt.mp hc
    refine ⟨h1.trans (ih _).1, ?_⟩
    rintro i (rfl | hi)
    · exact h2.trans (ih _).1
    · exact (ih _).2 i hi

/-- The index `argmax12 f` attains the maximum of `f`. -/
theorem argmax12_le {α : Type} [LinearOrder α] (f : Fin 12 → α) (i : Fin 12) :
    f i ≤ f (argmax12 f) :=
  (foldl_argmax_ge f (List.finRange 12) 0).2 i (List.mem_finRange i)

/-- If the fold starts below a strictly increasing list, the result is the
first index (in list order) attaining the running maximum: every index
strictly below the result has a strictly smaller `f`-value. -/
theorem foldl_argmax_first {α : Type} [LinearOrder α] (f : Fin 12 → α) :
    ∀ (l : List (Fin 12)) (b : Fin 12), (b :: l).Sorted (· < ·) →
      (l.foldl (fun b i => if f b < f i then i else b) b = b ∨
        l.foldl (fun b i => if f b < f i then i else b) b ∈ l) ∧
      ∀ j ∈ b :: l, j < l.foldl (fun b i => if f b < f i then i else b) b →
        f j < f (l.foldl (fun b i => if f b < f i then i else b) b) := by
  intro l
  induction l with
  | nil =>
    intro b _
    refine ⟨Or.inl rfl, ?_⟩
    intro j hj hlt
    simp only [List.foldl_nil] at hlt
    simp only [List.mem_singleton] at hj
    exact absurd hlt (hj ▸ lt_irrefl _)
  | cons a l ih =>
    intro b hsort
    rw [List.sorted_cons] at hsort
    obtain ⟨hb, hrest⟩ := hsort
    have hba : b < a := hb a (List.mem_cons_self a l)
    rw [List.sorted_cons] at hrest
    obtain ⟨ha, hl⟩ := hrest
    simp only [List.foldl_cons]
    set b₁ := if f b < f a then a else b with hb₁
    have hsort₁ : (b₁ :: l).Sorted (· < ·) := by
      rw [List.sorted_cons]
      refine ⟨?_, hl⟩
      intro x hx
      by_cases hc : f b < f a
      · rw [hb₁, if_pos hc]; exact ha x hx
      · rw [hb₁, if_neg hc]; exact hb x (List.mem_cons_of_mem a hx)
    obtain ⟨ihmem, ihlt⟩ := ih b₁ hsort₁
    set r := l.foldl (fun b i => if f b < f i then i else b) b₁ with hr
    have hmem : r = b ∨ r ∈ a :: l := by
      rcases ihmem with h | h
      · by_cases hc : f b < f a
        · right; rw [h, hb₁, if_pos hc]; exact List.mem_cons_self a l
        · left; rw [h, hb₁, if_neg hc]
      · right; exact List.mem_cons_of_mem a h
    refine ⟨hmem, ?_⟩
    intro j hj hjr
    rcases List.mem_cons.mp hj with hjb | hj'
    · -- j = b
      rw [hjb] at hjr ⊢
      by_cases hc : f b < f a
      · have hb₁a : b₁ = a := by rw [hb₁, if_pos hc]
        calc f b < f a := hc
        _ = f b₁ := by rw [hb₁a]
        _ ≤ f r := (foldl_argmax_ge f l b₁).1
      · have hb₁b : b₁ = b := by rw [hb₁, if_neg hc]
        exact ihlt b (by rw [hb₁b]; exact List.mem_cons_self _ _) hjr
    rcases List.mem_cons.mp hj' with hja | hj''
    · -- j = a
      rw [hja] at hjr ⊢
      by_cases hc : f b < f a
      · have hb₁a : b₁ = a := by rw [hb₁, if_pos hc]
        exact ihlt a (by rw [hb₁a]; exact List.mem_cons_self _ _) hjr
      · have hb₁b : b₁ = b := by rw [hb₁, if_neg hc]
        -- r ≠ b since a < r and b < a would give b < r = b
        rcases hmem with hrb | hrl
        · rw [hrb] at hjr
          exact absurd (hba.trans hjr) (lt_irrefl _)
        · rcases List.mem_cons.mp hrl with hra | hrl'
          · rw [hra] at hjr
            exact absurd hjr (lt_irrefl _)
          · have hbr : f b < f r :=
              ihlt b (by rw [hb₁b]; exact List.mem_cons_self _ _) (hba.trans (ha r hrl'))
            exact lt_of_le_of_lt (not_lt.mp hc) hbr
    · exact ihlt j (List.mem_cons_of_mem b₁ hj'') hjr

/-- Fidelity to `np.argmax`, which returns the first occurrence of the maximum: any index that
also attains the maximum is ≥ `argmax12 f`. -/
theorem argmax12_first {α : Type} [LinearOrder α] (f : Fin 12 → α) (i : Fin 12)
    (h : f (argmax12 f) ≤ f i) : argmax12 f ≤ i := by
  have hfr : List.finRange 12
      = (0 : Fin 12) :: [1, 2, 3, 4, 5, 6, 7, 8, 9, 10, 11] := by decide
  have hsorted : ((0 : Fin 12) :: [1, 2, 3, 4, 5, 6, 7, 8, 9, 10, 11]).Sorted (· < ·) := by
    decide
  have hstep : (if f 0 < f 0 then (0 : Fin 12) else 0) = 0 := if_neg (lt_irrefl _)
  have heq : argmax12 f
      = ([1, 2, 3, 4, 5, 6, 7, 8, 9, 10, 11] : List (Fin 12)).foldl
          (fun b i => if f b < f i then i else b) 0 := by
    unfold argmax12
    rw [hfr, List.foldl_cons, hstep]
  obtain ⟨-, hfirst⟩ := foldl_argmax_first f [1, 2, 3, 4, 5, 6, 7, 8, 9, 10, 11] 0 hsorted
  by_contra hcon
  push_neg at hcon
  have hi : i ∈ (0 : Fin 12) :: [1, 2, 3, 4, 5, 6, 7, 8, 9, 10, 11] := by
    rw [← hfr]; exact List.mem_finRange i
  have := hfirst i hi (heq ▸ hcon)
  rw [← heq] at this
  exact absurd (h.trans_lt this) (lt_irrefl _)

/-- If `f` has a strict maximum at `i`, then `argmax12 f = i`. -/
theorem argmax12_eq_of_forall_lt {α : Type} [LinearOrder α] {f : Fin 12 → α} {i : Fin 12}
    (h : ∀ j, j ≠ i → f j < f i) : argmax12 f = i := by
  by_contra hne
  exact absurd (argmax12_le f i) (not_le.mpr (h _ hne))

/-- The fold `argmax12` only looks at order comparisons of values, so it is invariant
under replacing `f` by any strictly-order-isomorphic family. -/
theorem argmax12_congr {α β : Type} [LinearOrder α] [LinearOrder β]
    (f : Fin 12 → α) (g : Fin 12 → β) (h : ∀ i j, f i < f j ↔ g i < g j) :
    argmax12 f = argmax12 g := by
  unfold argmax12
  suffices H : ∀ (l : List (Fin 12)) (b : Fin 12),
      l.foldl (fun b i => if f b < f i then i else b) b
        = l.foldl (fun b i => if g b < g i then i else b) b from H _ 0
  intro l
  induction l with
  | nil => intro b; rfl
  | cons a l ih =>
    intro b
    simp only [List.foldl_cons]
    have : (if f b < f a then a else b) = (if g b < g a then a else b) := by
      by_cases hc : f b < f a
      · rw [if_pos hc, if_pos ((h _ _).mp hc)]
      · rw [if_neg hc, if_neg fun hg => hc ((h _ _).mpr hg)]
    rw [this]
    exact ih _


/-- The raw weights are the integer table divided by 100. -/
theorem mode_weights_cast (m : Mode) (i : Fin 12) :
    ((mode_weights m i : ℚ) : ℝ) = ((w100 m i : ℤ) : ℝ) / 100 := by
  cases m <;> fin_cases i <;> norm_num [mode_weights, w100]

/-- The raw weight vectors as a positive affine image of the integer table
(*suitable for `zscore_affine`*). -/
theorem wR_affine (m : Mode) :
    wR m = fun i => (1 / 100 : ℝ) * ((w100 m i : ℤ) : ℝ) + 0 := by
  funext i
  rw [wR, mode_weights_cast]
  ring

/-- Deviation from the mean of an integer vector, over `ℝ`. -/
theorem dev_intCast (v : Fin 12 → ℤ) (i : Fin 12) :
    ((v i : ℝ)) - npMean (fun j => (v j : ℝ)) = (devInt v i : ℝ) / 12 := by
  unfold npMean devInt
  push_cast
  have : ∑ j, ((v j : ℝ)) = ((∑ j, v j : ℤ) : ℝ) := by push_cast; rfl
  rw [this]
  push_cast
  ring

/-- Population variance of an integer vector, over `ℝ`. -/
theorem npVar_intCast (v : Fin 12 → ℤ) :
    npVar (fun j => (v j : ℝ)) = (iVar v : ℝ) / 1728 := by
  unfold npVar iVar
  rw [show (∑ i, ((fun j => (v j : ℝ)) i - npMean fun j => (v j : ℝ)) ^ 2)
      = ∑ i, ((devInt v i : ℝ) / 12) ^ 2 from
    Finset.sum_congr rfl fun i _ => by rw [dev_intCast]]
  rw [show (∑ i, ((devInt v i : ℝ) / 12) ^ 2) = (∑ i, ((devInt v i : ℝ)) ^ 2) / 144 by
    rw [Finset.sum_div]; exact Finset.sum_congr rfl fun i _ => by ring]
  have : ∑ i, ((devInt v i : ℝ)) ^ 2 = ((∑ i, devInt v i ^ 2 : ℤ) : ℝ) := by
    push_cast; rfl
  rw [this]
  norm_num
  ring

/-- Scaling a vector by a constant scales its variance quadratically. -/
theorem npVar_smul {n : ℕ} (a : ℝ) (v : Fin n → ℝ) :
    npVar (fun i => a * v i) = a ^ 2 * npVar v := by
  have hm : npMean (fun i => a * v i) = a * npMean v := by
    unfold npMean
    rw [← Finset.mul_sum, mul_div_assoc]
  unfold npVar
  rw [hm]
  rw [show (∑ i, ((fun i => a * v i) i - a * npMean v) ^ 2)
      = ∑ i, a ^ 2 * (v i - npMean v) ^ 2 from Finset.sum_congr rfl fun i _ => by ring]
  rw [← Finset.mul_sum, mul_div_assoc]

/-- The variance of each raw weight vector is nonzero (so z-scoring the
profiles is well defined). -/
theorem npVar_wR_ne (m : Mode) : npVar (wR m) ≠ 0 := by
  have h : wR m = fun i => (1 / 100 : ℝ) * (((w100 m i : ℤ) : ℝ)) := by
    funext i
    rw [wR, mode_weights_cast]
    ring
  rw [h, npVar_smul, npVar_intCast]
  have hpos : (0 : ℤ) < iVar (w100 m) := by cases m <;> decide
  have : (0 : ℝ) < (iVar (w100 m) : ℝ) := by exact_mod_cast hpos
  positivity


/-- Structure of the coefficient vector: each entry is the deviation-product
sum divided by `12 σ_w σ_x`. -/
theorem coefficients_eq_SR (m : Mode) {x : Fin 12 → ℝ}
    (hx : npVar x ≠ 0) (r : Fin 12) :
    coefficients m x r = SR m x r / (npStd (wR m) * npStd x * 12) := by
  have hw : npVar (wR m) ≠ 0 := npVar_wR_ne m
  unfold coefficients coefficientsZ
  have hnum : ∑ i, (weight_table m).transpose r i * zscore x i
      = SR m x r / (npStd (wR m) * npStd x) := by
    simp only [Matrix.transpose_apply, weight_table, Matrix.circulant_apply,
      zscored_weights]
    unfold zscore SR
    rw [Finset.sum_div]
    exact Finset.sum_congr rfl fun i _ => by rw [div_mul_div_comm]
  rw [hnum, mode_weight_norms, zscored_weights, vecNorm_zscore hw, vecNorm_zscore hx]
  rw [div_div, div_div]
  congr 1
  rw [Real.mul_self_sqrt (by positivity)]
  push_cast
  ring

/-- The sum `SR` for an integer input vector is `iP / 14400`. -/
theorem SR_intCast (m : Mode) (v : Fin 12 → ℤ) (r : Fin 12) :
    SR m (fun j => (v j : ℝ)) r = (iP m v r : ℝ) / 14400 := by
  unfold SR
  have hterm : ∀ i : Fin 12,
      (wR m (i - r) - npMean (wR m)) * (((v i : ℝ)) - npMean fun j => (v j : ℝ))
        = ((devInt (w100 m) (i - r) : ℝ) / 1200) * ((devInt v i : ℝ) / 12) := by
    intro i
    rw [dev_intCast]
    congr 1
    have h : wR m = fun i => (((w100 m i : ℤ) : ℝ)) / 100 := by
      funext j
      rw [wR, mode_weights_cast]
    rw [h]
    have hmean : npMean (fun i => (((w100 m i : ℤ) : ℝ)) / 100)
        = npMean (fun i => (((w100 m i : ℤ) : ℝ))) / 100 := by
      unfold npMean
      rw [← Finset.sum_div]
      ring
    rw [hmean]
    have := dev_intCast (w100 m) (i - r)
    field_simp
    field_simp at this
    linarith
  rw [Finset.sum_congr rfl fun i _ => hterm i]
  have : ∑ i, ((devInt (w100 m) (i - r) : ℝ) / 1200) * ((devInt v i : ℝ) / 12)
      = (∑ i, ((devInt (w100 m) (i - r) : ℝ)) * ((devInt v i : ℝ))) / 14400 := by
    rw [Finset.sum_div]
    exact Finset.sum_congr rfl fun i _ => by ring
  rw [this]
  congr 1
  unfold iP
  push_cast
  rfl

/-- Within one mode, comparing coefficients is comparing `SR` values. -/
theorem coefficients_lt_iff (m : Mode) {x : Fin 12 → ℝ} (hx : npVar x ≠ 0)
    (r s : Fin 12) :
    coefficients m x r < coefficients m x s ↔ SR m x r < SR m x s := by
  rw [coefficients_eq_SR m hx, coefficients_eq_SR m hx]
  have hpos : (0 : ℝ) < npStd (wR m) * npStd x * 12 := by
    have h1 := npStd_pos (npVar_wR_ne m)
    have h2 := npStd_pos hx
    positivity
  exact div_lt_div_iff_of_pos_right hpos

/-- The per-mode best key of an integer input is computed by the integer
argmax. -/
theorem best_key_idx_intCast (m : Mode) (v : Fin 12 → ℤ)
    (hx : npVar (fun j => ((v j : ℤ) : ℝ)) ≠ 0) :
    best_key_idx m (fun j => (v j : ℝ)) = iBestKey m v := by
  unfold best_key_idx iBestKey
  refine argmax12_congr _ _ fun r s => ?_
  rw [coefficients_lt_iff m hx, SR_intCast, SR_intCast]
  rw [div_lt_div_iff_of_pos_right (by norm_num : (0:ℝ) < 14400)]
  exact Int.cast_lt

/-! ## Properties of the stable descending sort -/

/-- Inserting an element that dominates (in `corrGE`) everything in the list
puts it at the head. -/
theorem orderedInsert_headI_of_forall (a : Estimate) (l : List Estimate)
    (h : ∀ x ∈ l, corrGE a x) :
    (List.orderedInsert corrGE a l).headI = a := by
  cases l with
  | nil => rfl
  | cons b t =>
    rw [List.orderedInsert_of_le corrGE t (h b (List.mem_cons_self b t))]
    rfl

/-- The head of the stable sort of `l` is any strict maximiser of the
correlation over `l`. -/
theorem insertionSort_headI_of_strict_max (l : List Estimate) (e : Estimate)
    (he : e ∈ l) (hmax : ∀ x ∈ l, x ≠ e → x.correlation < e.correlation) :
    (List.insertionSort corrGE l).headI = e := by
  induction l with
  | nil => cases he
  | cons a l ih =>
    by_cases hae : a = e
    · -- the new element is (a copy of) the maximiser: it is inserted at the head
      simp only [List.insertionSort]
      rw [hae]
      refine orderedInsert_headI_of_forall e _ fun x hx => ?_
      have hxl : x ∈ l := (List.perm_insertionSort corrGE l).mem_iff.mp hx
      by_cases hxe : x = e
      · rw [hxe]
        exact le_refl e.correlation
      · exact le_of_lt (hmax x (List.mem_cons_of_mem a hxl) hxe)

    · -- the maximiser sits in the tail; inserting a strictly smaller element
      -- cannot displace it from the head
      have he' : e ∈ l := by
        rcases List.mem_cons.mp he with h | h
        · exact absurd h.symm hae
        · exact h
      have hhead : (List.insertionSort corrGE l).headI = e :=
        ih he' fun x hx hxe => hmax x (List.mem_cons_of_mem a hx) hxe
      have hne : List.insertionSort corrGE l ≠ [] := by
        intro hnil
        have := (List.perm_insertionSort corrGE l).symm.mem_iff.mp he'
        rw [hnil] at this
        cases this
      obtain ⟨t, ht⟩ : ∃ t, List.insertionSort corrGE l = e :: t := by
        cases hsl : List.insertionSort corrGE l with
        | nil => exact absurd hsl hne
        | cons x t =>
          refine ⟨t, ?_⟩
          have : x = e := by rw [hsl] at hhead; exact hhead
          rw [this]
      have hlt : a.correlation < e.correlation :=
        hmax a (List.mem_cons_self a l) hae
      simp only [List.insertionSort]
      rw [ht]
      simp only [List.orderedInsert]
      rw [if_neg (show ¬ corrGE a e from not_le.mpr hlt)]
      rfl

/-- Inserting an element with correlation `c` appends it after all existing
elements of correlation `c` (the passed-over elements are strictly larger). -/
theorem orderedInsert_filter_eq (a : Estimate) (l : List Estimate) (c : ℝ)
    (hc : a.correlation = c) :
    (List.orderedInsert corrGE a l).filter (fun e => decide (e.correlation = c))
      = a :: l.filter (fun e => decide (e.correlation = c)) := by
  induction l with
  | nil => simp [hc]
  | cons b t ih =>
    by_cases hb : corrGE a b
    · rw [List.orderedInsert_of_le corrGE t hb]
      simp [List.filter_cons, hc]
    · have hbc : ¬ b.correlation = c := by
        intro hbc
        exact hb (le_of_eq (hbc.trans hc.symm))
      simp only [List.orderedInsert]
      rw [if_neg hb]
      simp only [List.filter_cons]
      rw [ih]
      simp [hbc]

/-- Inserting an element whose correlation is not `c` does not change the
sublist of elements with correlation `c`. -/
theorem orderedInsert_filter_ne (a : Estimate) (l : List Estimate) (c : ℝ)
    (hc : ¬ a.correlation = c) :
    (List.orderedInsert corrGE a l).filter (fun e => decide (e.correlation = c))
      = l.filter (fun e => decide (e.correlation = c)) := by
  induction l with
  | nil => simp [hc]
  | cons b t ih =>
    by_cases hb : corrGE a b
    · rw [List.orderedInsert_of_le corrGE t hb]
      simp [List.filter_cons, hc]
    · simp only [List.orderedInsert]
      rw [if_neg hb]
      by_cases hbc : b.correlation = c <;> simp [List.filter_cons, hbc, ih]

/-- Stability of the sort: for every correlation value `c`, the elements of
correlation `c` appear in the sorted list exactly in their original order. -/
theorem insertionSort_filter (l : List Estimate) (c : ℝ) :
    (List.insertionSort corrGE l).filter (fun e => decide (e.correlation = c))
      = l.filter (fun e => decide (e.correlation = c)) := by
  induction l with
  | nil => rfl
  | cons a l ih =>
    simp only [List.insertionSort]
    by_cases hc : a.correlation = c
    · rw [orderedInsert_filter_eq a _ c hc, ih]
      simp [List.filter_cons, hc]
    · rw [orderedInsert_filter_ne a _ c hc, ih]
      simp [List.filter_cons, hc]

/-- Nonzero integer variance transfers to nonzero real variance of the cast
vector. -/
theorem npVar_intCast_ne {v : Fin 12 → ℤ} (h : iVar v ≠ 0) :
    npVar (fun j => (v j : ℝ)) ≠ 0 := by
  rw [npVar_intCast]
  intro hc
  apply h
  have : (iVar v : ℝ) = 0 := by
    field_simp at hc
    exact_mod_cast hc
  exact_mod_cast this


theorem npVar_e0R_ne : npVar e0R ≠ 0 := npVar_intCast_ne (by decide)

/-! ## Claim theorems -/

/-- Claim C9 (confirmed).  The estimation pipeline is deterministic: two
invocations of `__call__` on identical input chroma vectors (against the
fixed constructed profile table) return bit-identical results — the same
best name, best correlation, and the same `EstimateList` with identical
modes, key indices, names, correlations and coefficient vectors in
identical order.  The embedded pipeline is a pure function of its input. -/
theorem call_deterministic (x₁ x₂ : Fin 12 → ℝ) (h : ∀ i, x₁ i = x₂ i) :
    call x₁ = call x₂ := by
  rw [funext h]

theorem call_deterministic_witness :
    (∀ i : Fin 12, e0R i = e0R i) ∧ call e0R = call e0R :=
  ⟨fun _ => rfl, call_deterministic e0R e0R fun _ => rfl⟩

/-- Claim C10 (confirmed).  For every valid non-flat input `x`, every positive
scale `a` and every uniform shift `b`, the pipeline output for `a·x + b` is
identical to the output for `x` (and so is every coefficient): z-scoring
makes the whole estimate list invariant under positive affine rescaling. -/
theorem call_affine_invariant {a : ℝ} (ha : 0 < a) (b : ℝ) (x : Fin 12 → ℝ)
    (hx : npVar x ≠ 0) :
    call (fun i => a * x i + b) = call x ∧
      ∀ m r, coefficients m (fun i => a * x i + b) r = coefficients m x r := by
  have hz := zscore_affine ha b x
  constructor
  · unfold call
    rw [hz]
  · intro m r
    unfold coefficients
    rw [hz]

theorem call_affine_invariant_witness :
    (0 : ℝ) < 2 ∧ npVar e0R ≠ 0 ∧
      (call (fun i => 2 * e0R i + 3) = call e0R ∧
        ∀ m r, coefficients m (fun i => 2 * e0R i + 3) r = coefficients m e0R r) :=
  ⟨by norm_num, npVar_e0R_ne,
    call_affine_invariant (by norm_num) 3 e0R npVar_e0R_ne⟩

/-- Claim C8 (confirmed).  For every mode and every valid non-flat input, the
best key index is the argmax of the mode's 12 coefficients, and on ties the
lowest pitch-class index (first in the left-to-right scan) is selected:
every coefficient is ≤ the one at `best_key_idx`, and any index attaining
the maximum is ≥ `best_key_idx`. -/
theorem best_key_idx_is_first_argmax (m : Mode) (x : Fin 12 → ℝ)
    (hx : npVar x ≠ 0) :
    (∀ r, coefficients m x r ≤ coefficients m x (best_key_idx m x)) ∧
      ∀ r, coefficients m x (best_key_idx m x) ≤ coefficients m x r →
        best_key_idx m x ≤ r :=
  ⟨fun r => argmax12_le (coefficients m x) r,
   fun r h => argmax12_first (coefficients m x) r h⟩

theorem best_key_idx_is_first_argmax_witness :
    npVar e0R ≠ 0 ∧
      ((∀ r, coefficients Mode.ionian e0R r
          ≤ coefficients Mode.ionian e0R (best_key_idx Mode.ionian e0R)) ∧
        ∀ r, coefficients Mode.ionian e0R (best_key_idx Mode.ionian e0R)
            ≤ coefficients Mode.ionian e0R r →
          best_key_idx Mode.ionian e0R ≤ r) :=
  ⟨npVar_e0R_ne, best_key_idx_is_first_argmax Mode.ionian e0R npVar_e0R_ne⟩

/-- Claim C3 (confirmed).  For every valid (non-flat) 12-element input, every
entry of every mode's coefficient vector lies in the closed interval
`[-1, 1]` (Cauchy–Schwarz for the correlation of the two z-scored
vectors). -/
theorem coefficients_mem_Icc (m : Mode) (x : Fin 12 → ℝ) (hx : npVar x ≠ 0)
    (r : Fin 12) :
    -1 ≤ coefficients m x r ∧ coefficients m x r ≤ 1 := by
  rw [← abs_le]
  rw [coefficients_eq_SR m hx]
  have hw : npVar (wR m) ≠ 0 := npVar_wR_ne m
  have hσw : 0 < npStd (wR m) := npStd_pos hw
  have hσx : 0 < npStd x := npStd_pos hx
  have hD : (0 : ℝ) < npStd (wR m) * npStd x * 12 := by positivity
  rw [abs_div, abs_of_pos hD, div_le_one hD]
  -- Cauchy–Schwarz: SR² ≤ (∑ wdev²) (∑ xdev²) = 144 · Var(w) · Var(x)
  have hcs := Finset.sum_mul_sq_le_sq_mul_sq Finset.univ
    (fun i : Fin 12 => wR m (i - r) - npMean (wR m)) (fun i => x i - npMean x)
  have hwsum : ∑ i : Fin 12, (wR m (i - r) - npMean (wR m)) ^ 2
      = 12 * npVar (wR m) := by
    rw [sum_rotate (fun j => (wR m j - npMean (wR m)) ^ 2) r]
    unfold npVar
    field_simp
  have hxsum : ∑ i : Fin 12, (x i - npMean x) ^ 2 = 12 * npVar x := by
    unfold npVar
    field_simp
  have hSR2 : SR m x r ^ 2 ≤ (12 * npVar (wR m)) * (12 * npVar x) := by
    rw [← hwsum, ← hxsum]
    exact hcs
  have habs : |SR m x r| ≤ Real.sqrt ((12 * npVar (wR m)) * (12 * npVar x)) := by
    rw [← Real.sqrt_sq_eq_abs]
    exact Real.sqrt_le_sqrt hSR2
  refine habs.trans (le_of_eq ?_)
  rw [show (12 * npVar (wR m)) * (12 * npVar x)
      = 144 * (npVar (wR m) * npVar x) by ring]
  rw [Real.sqrt_mul (by norm_num : (0:ℝ) ≤ 144),
    Real.sqrt_mul (npVar_nonneg (wR m))]
  rw [show Real.sqrt 144 = 12 by
    rw [show (144 : ℝ) = 12 ^ 2 by norm_num, Real.sqrt_sq (by norm_num : (0:ℝ) ≤ 12)]]
  unfold npStd
  ring

theorem coefficients_mem_Icc_witness :
    npVar e0R ≠ 0 ∧
      (-1 ≤ coefficients Mode.dorian e0R 5 ∧ coefficients Mode.dorian e0R 5 ≤ 1) :=
  ⟨npVar_e0R_ne, coefficients_mem_Icc Mode.dorian e0R npVar_e0R_ne 5⟩

/-- Claim C5 (confirmed).  For every valid non-flat input the produced
estimate list has exactly 7 entries, covers each of the 7 modes exactly
once, is sorted descending by correlation, and the sort is stable: for each
correlation value the entries carrying it appear in the original
declaration order `ionian, dorian, phrygian, lydian, mixolydian, aeolian,
locrian` (the build order of `all_estimates`). -/
theorem sorted_estimates_invariants (x : Fin 12 → ℝ) (hx : npVar x ≠ 0) :
    (sorted_estimates x).length = 7 ∧
      (∀ m : Mode, ((sorted_estimates x).map Estimate.mode).count m.name = 1) ∧
      (sorted_estimates x).Sorted corrGE ∧
      ∀ c : ℝ, (sorted_estimates x).filter (fun e => decide (e.correlation = c))
        = (all_estimates x).filter (fun e => decide (e.correlation = c)) := by
  have hperm : (sorted_estimates x).Perm (all_estimates x) :=
    List.perm_insertionSort corrGE (all_estimatesZ (zscore x))
  refine ⟨?_, ?_, ?_, ?_⟩
  · rw [hperm.length_eq]
    rfl
  · intro m
    have hmap : ((sorted_estimates x).map Estimate.mode).Perm
        ((all_estimates x).map Estimate.mode) := hperm.map _
    rw [hmap.count_eq]
    have : (all_estimates x).map Estimate.mode = modeList.map Mode.name := by
      unfold all_estimates all_estimatesZ
      rw [List.map_map]
      rfl
    rw [this]
    cases m <;> rfl
  · exact List.sorted_insertionSort corrGE (all_estimatesZ (zscore x))
  · intro c
    exact insertionSort_filter (all_estimatesZ (zscore x)) c

theorem sorted_estimates_invariants_witness :
    npVar e0R ≠ 0 ∧
      ((sorted_estimates e0R).length = 7 ∧
        (∀ m : Mode, ((sorted_estimates e0R).map Estimate.mode).count m.name = 1) ∧
        (sorted_estimates e0R).Sorted corrGE ∧
        ∀ c : ℝ, (sorted_estimates e0R).filter (fun e => decide (e.correlation = c))
          = (all_estimates e0R).filter (fun e => decide (e.correlation = c))) :=
  ⟨npVar_e0R_ne, sorted_estimates_invariants e0R npVar_e0R_ne⟩

/-! ## Rotation covariance (claim C4) -/


theorem vecNorm_rotate (z : Fin 12 → ℝ) (k : Fin 12) :
    vecNorm (fun i => z (i - k)) = vecNorm z := by
  unfold vecNorm
  rw [sum_rotate (fun i => z i ^ 2) k]

/-- Rotating the input cyclically permutes each mode's coefficient
vector. -/
theorem coefficients_rot (m : Mode) (x : Fin 12 → ℝ) (k r : Fin 12) :
    coefficients m (rot12 k x) r = coefficients m x (r - k) := by
  unfold coefficients rot12
  rw [zscore_rotate x k]
  unfold coefficientsZ
  rw [vecNorm_rotate (zscore x) k]
  congr 2
  simp only [Matrix.transpose_apply, weight_table, Matrix.circulant_apply]
  refine Fintype.sum_equiv (Equiv.subRight k) _ _ fun i => ?_
  have h1 : (Equiv.subRight k) i - (r - k) = i - r := by
    simp only [Equiv.subRight_apply]
    exact sub_sub_sub_cancel_right i r k
  rw [h1]
  rfl

/-- Claim C4 (corrected).  Rotating a valid non-flat input by `k` cyclically
shifts every mode's coefficient vector by `k`: the multiset of coefficient
magnitudes and the top correlation value per mode are unchanged, and —
*provided the mode's maximum coefficient is attained at a unique rotation*
— the best key index shifts by `k` (mod 12).  Without the uniqueness
proviso the index clause is false (see the counterexample): `np.argmax`
resolves ties by position, which is not rotation-equivariant. -/
theorem rotation_covariance (x : Fin 12 → ℝ) (hx : npVar x ≠ 0) (k : Fin 12)
    (m : Mode) :
    (∀ r, coefficients m (rot12 k x) r = coefficients m x (r - k)) ∧
      Multiset.map (fun r => |coefficients m (rot12 k x) r|) Finset.univ.val
        = Multiset.map (fun r => |coefficients m x r|) Finset.univ.val ∧
      best_correlation m (rot12 k x) = best_correlation m x ∧
      ((∀ r, r ≠ best_key_idx m x →
          coefficients m x r < coefficients m x (best_key_idx m x)) →
        best_key_idx m (rot12 k x) = best_key_idx m x + k) := by
  have hcoef := coefficients_rot m x k
  refine ⟨hcoef, ?_, ?_, ?_⟩
  · -- the coefficient multiset is permuted by the rotation r ↦ r - k
    have hperm : Multiset.map (fun r : Fin 12 => r - k) Finset.univ.val
        = Finset.univ.val := by
      have h1 := Finset.map_univ_equiv (Equiv.subRight k)
      have h2 := congrArg Finset.val h1
      rw [Finset.map_val] at h2
      exact h2
    calc Multiset.map (fun r => |coefficients m (rot12 k x) r|) Finset.univ.val
        = Multiset.map ((fun r => |coefficients m x r|) ∘ fun r : Fin 12 => r - k)
            Finset.univ.val :=
          Multiset.map_congr rfl fun r _ => by rw [Function.comp_apply, hcoef r]
      _ = Multiset.map (fun r => |coefficients m x r|)
            (Multiset.map (fun r : Fin 12 => r - k) Finset.univ.val) :=
          (Multiset.map_map _ _ _).symm
      _ = Multiset.map (fun r => |coefficients m x r|) Finset.univ.val := by
          rw [hperm]
  · -- the top correlation value is preserved
    unfold best_correlation best_key_idx
    apply le_antisymm
    · rw [hcoef]
      exact argmax12_le (coefficients m x) _
    · have h1 : coefficients m x (argmax12 (coefficients m x))
          = coefficients m (rot12 k x) (argmax12 (coefficients m x) + k) := by
        rw [hcoef, add_sub_cancel_right]
      rw [h1]
      exact argmax12_le (coefficients m (rot12 k x)) _
  · -- with a unique per-mode maximum, the best key shifts by k
    intro huniq
    show argmax12 (coefficients m (rot12 k x)) = best_key_idx m x + k
    refine argmax12_eq_of_forall_lt fun j hj => ?_
    rw [hcoef j, hcoef (best_key_idx m x + k), add_sub_cancel_right]
    refine huniq (j - k) fun hjk => hj ?_
    rw [← hjk, sub_add_cancel]


/-- Claim C4 counterexample.  The claim as stated — for *every* valid non-flat
input the best key index of the rotated input equals the original best key
index shifted by `k` — is false: `x6R` is non-flat and invariant under
rotation by 6, so each mode's best key index is unchanged by that rotation,
yet the claim demands it move by 6. -/
theorem rotation_covariance_counterexample :
    npVar x6R ≠ 0 ∧ rot12 6 x6R = x6R ∧
      best_key_idx Mode.ionian (rot12 6 x6R) ≠ best_key_idx Mode.ionian x6R + 6 := by
  have hrot : rot12 6 x6R = x6R := by
    funext i
    unfold rot12 x6R x6Int
    fin_cases i <;> rfl
  refine ⟨npVar_intCast_ne (by decide), hrot, ?_⟩
  rw [hrot]
  exact fun h => (by decide : ∀ j : Fin 12, j ≠ j + 6) _ h

/-- For the concentrated test vector the ionian coefficient vector has a
strict unique maximum (at pitch class 0). -/
theorem e0_unique_max :
    ∀ r, r ≠ best_key_idx Mode.ionian e0R →
      coefficients Mode.ionian e0R r
        < coefficients Mode.ionian e0R (best_key_idx Mode.ionian e0R) := by
  have hbk : best_key_idx Mode.ionian e0R = 0 := by
    rw [show best_key_idx Mode.ionian e0R = iBestKey Mode.ionian e0Int from
      best_key_idx_intCast Mode.ionian e0Int npVar_e0R_ne]
    decide
  have hint : ∀ r : Fin 12, r ≠ 0 →
      iP Mode.ionian e0Int r < iP Mode.ionian e0Int 0 := by decide
  intro r hr
  rw [hbk] at hr ⊢
  rw [show coefficients Mode.ionian e0R r < coefficients Mode.ionian e0R 0
      ↔ SR Mode.ionian e0R r < SR Mode.ionian e0R 0 from
    coefficients_lt_iff Mode.ionian npVar_e0R_ne r 0]
  rw [show SR Mode.ionian e0R r = (iP Mode.ionian e0Int r : ℝ) / 14400 from
    SR_intCast Mode.ionian e0Int r]
  rw [show SR Mode.ionian e0R 0 = (iP Mode.ionian e0Int 0 : ℝ) / 14400 from
    SR_intCast Mode.ionian e0Int 0]
  rw [div_lt_div_iff_of_pos_right (by norm_num : (0:ℝ) < 14400), Int.cast_lt]
  exact hint r hr

theorem rotation_covariance_witness :
    npVar e0R ≠ 0 ∧
      (∀ r, r ≠ best_key_idx Mode.ionian e0R →
        coefficients Mode.ionian e0R r
          < coefficients Mode.ionian e0R (best_key_idx Mode.ionian e0R)) ∧
      best_key_idx Mode.ionian (rot12 1 e0R) = best_key_idx Mode.ionian e0R + 1 :=
  ⟨npVar_e0R_ne, e0_unique_max,
    (rotation_covariance e0R npVar_e0R_ne 1 Mode.ionian).2.2.2 e0_unique_max⟩

/-! ## The ionian-input scenario (claim C6) -/

/-- Comparing `A / √u` with `B / √v` reduces to comparing `A²v` with `B²u`
when everything in sight is nonnegative. -/
theorem div_sqrt_lt_div_sqrt {A B u v : ℝ} (hA : 0 ≤ A) (hB : 0 ≤ B)
    (hu : 0 < u) (hv : 0 < v) (h : A ^ 2 * v < B ^ 2 * u) :
    A / Real.sqrt u < B / Real.sqrt v := by
  have hsu : 0 < Real.sqrt u := Real.sqrt_pos.mpr hu
  have hsv : 0 < Real.sqrt v := Real.sqrt_pos.mpr hv
  rw [div_lt_div_iff hsu hsv]
  have h2 : (A * Real.sqrt v) ^ 2 < (B * Real.sqrt u) ^ 2 := by
    rw [mul_pow, mul_pow, Real.sq_sqrt hv.le, Real.sq_sqrt hu.le]
    exact h
  exact lt_of_pow_lt_pow_left 2 (by positivity) h2

/-- The variance of a raw weight vector, in terms of the integer layer. -/
theorem npVar_wR_eq (m : Mode) :
    npVar (wR m) = (iVar (w100 m) : ℝ) / 17280000 := by
  rw [show wR m = fun i => (1 / 100 : ℝ) * (((w100 m i : ℤ) : ℝ)) from by
    funext i; rw [wR, mode_weights_cast]; ring]
  rw [npVar_smul, npVar_intCast]
  ring

/-- Cross-mode comparison of coefficients for an integer input, decided by
integer arithmetic: `iP₁/√iVar₁ < iP₂/√iVar₂` iff `iP₁²·iVar₂ < iP₂²·iVar₁`
(for nonnegative numerators). -/
theorem coefficients_cross_lt (m₁ m₂ : Mode) (v : Fin 12 → ℤ)
    (hx : npVar (fun j => ((v j : ℤ) : ℝ)) ≠ 0) (r₁ r₂ : Fin 12)
    (h1 : 0 ≤ iP m₁ v r₁) (h2 : 0 ≤ iP m₂ v r₂)
    (hlt : iP m₁ v r₁ ^ 2 * iVar (w100 m₂) < iP m₂ v r₂ ^ 2 * iVar (w100 m₁)) :
    coefficients m₁ (fun j => (v j : ℝ)) r₁ < coefficients m₂ (fun j => (v j : ℝ)) r₂ := by
  rw [coefficients_eq_SR m₁ hx, coefficients_eq_SR m₂ hx,
    SR_intCast m₁ v r₁, SR_intCast m₂ v r₂]
  have hσx : 0 < npStd (fun j => ((v j : ℤ) : ℝ)) := npStd_pos hx
  have hform : ∀ (m : Mode) (a : ℝ),
      a / 14400 / (npStd (wR m) * npStd (fun j => ((v j : ℤ) : ℝ)) * 12)
        = (a / (172800 * npStd (fun j => ((v j : ℤ) : ℝ)))) / Real.sqrt (npVar (wR m)) := by
    intro m a
    rw [show npStd (wR m) = Real.sqrt (npVar (wR m)) from rfl, div_div, div_div]
    congr 1
    ring
  rw [hform m₁, hform m₂]
  have hvpos : ∀ m : Mode, (0:ℝ) < npVar (wR m) := fun m =>
    lt_of_le_of_ne (npVar_nonneg _) (Ne.symm (npVar_wR_ne m))
  refine div_sqrt_lt_div_sqrt ?_ ?_ (hvpos m₁) (hvpos m₂) ?_
  · have : (0:ℝ) ≤ (iP m₁ v r₁ : ℝ) := by exact_mod_cast h1
    positivity
  · have : (0:ℝ) ≤ (iP m₂ v r₂ : ℝ) := by exact_mod_cast h2
    positivity
  · have hltR : ((iP m₁ v r₁ : ℝ)) ^ 2 * (iVar (w100 m₂) : ℝ)
        < ((iP m₂ v r₂ : ℝ)) ^ 2 * (iVar (w100 m₁) : ℝ) := by exact_mod_cast hlt
    rw [npVar_wR_eq m₁, npVar_wR_eq m₂]
    rw [div_pow, div_pow, div_mul_div_comm, div_mul_div_comm]
    rw [div_lt_div_iff_of_pos_right (by positivity)]
    exact hltR


theorem npVar_xIon_ne : npVar xIon ≠ 0 := npVar_intCast_ne (by decide)

/-- Feeding the raw ionian profile to the estimator z-scores to the same
vector as its 100-fold integer rescaling. -/
theorem zscore_wR_ionian : zscore (wR Mode.ionian) = zscore xIon := by
  rw [wR_affine Mode.ionian]
  exact zscore_affine (by norm_num) 0 fun j => ((w100 Mode.ionian j : ℤ) : ℝ)

/-- Per-mode best keys for the ionian input. -/
theorem best_key_idx_xIon (m : Mode) :
    best_key_idx m xIon = iBestKey m (w100 Mode.ionian) :=
  best_key_idx_intCast m (w100 Mode.ionian) npVar_xIon_ne

/-- Every non-ionian mode's best correlation on the ionian input is
strictly below the ionian correlation at tonic C. -/
theorem xIon_cross_dominance (m : Mode) (hm : m ≠ Mode.ionian) :
    coefficients m xIon (best_key_idx m xIon)
      < coefficients Mode.ionian xIon 0 := by
  cases m with
  | ionian => exact absurd rfl hm
  | dorian =>
    rw [show best_key_idx Mode.dorian xIon = (4 : Fin 12) from by
      rw [best_key_idx_xIon]; decide]
    exact coefficients_cross_lt Mode.dorian Mode.ionian (w100 Mode.ionian)
      npVar_xIon_ne 4 0 (by decide) (by decide) (by decide)
  | phrygian =>
    rw [show best_key_idx Mode.phrygian xIon = (0 : Fin 12) from by
      rw [best_key_idx_xIon]; decide]
    exact coefficients_cross_lt Mode.phrygian Mode.ionian (w100 Mode.ionian)
      npVar_xIon_ne 0 0 (by decide) (by decide) (by decide)
  | lydian =>
    rw [show best_key_idx Mode.lydian xIon = (0 : Fin 12) from by
      rw [best_key_idx_xIon]; decide]
    exact coefficients_cross_lt Mode.lydian Mode.ionian (w100 Mode.ionian)
      npVar_xIon_ne 0 0 (by decide) (by decide) (by decide)
  | mixolydian =>
    rw [show best_key_idx Mode.mixolydian xIon = (0 : Fin 12) from by
      rw [best_key_idx_xIon]; decide]
    exact coefficients_cross_lt Mode.mixolydian Mode.ionian (w100 Mode.ionian)
      npVar_xIon_ne 0 0 (by decide) (by decide) (by decide)
  | aeolian =>
    rw [show best_key_idx Mode.aeolian xIon = (0 : Fin 12) from by
      rw [best_key_idx_xIon]; decide]
    exact coefficients_cross_lt Mode.aeolian Mode.ionian (w100 Mode.ionian)
      npVar_xIon_ne 0 0 (by decide) (by decide) (by decide)
  | locrian =>
    rw [show best_key_idx Mode.locrian xIon = (0 : Fin 12) from by
      rw [best_key_idx_xIon]; decide]
    exact coefficients_cross_lt Mode.locrian Mode.ionian (w100 Mode.ionian)
      npVar_xIon_ne 0 0 (by decide) (by decide) (by decide)

/-- Within the ionian mode, tonic 0 is the strict unique maximiser on the
ionian input. -/
theorem xIon_ionian_unique_max (r : Fin 12) (hr : r ≠ 0) :
    coefficients Mode.ionian xIon r < coefficients Mode.ionian xIon 0 := by
  rw [show coefficients Mode.ionian xIon r < coefficients Mode.ionian xIon 0
      ↔ SR Mode.ionian xIon r < SR Mode.ionian xIon 0 from
    coefficients_lt_iff Mode.ionian npVar_xIon_ne r 0]
  rw [show SR Mode.ionian xIon r = (iP Mode.ionian (w100 Mode.ionian) r : ℝ) / 14400 from
    SR_intCast Mode.ionian (w100 Mode.ionian) r]
  rw [show SR Mode.ionian xIon 0 = (iP Mode.ionian (w100 Mode.ionian) 0 : ℝ) / 14400 from
    SR_intCast Mode.ionian (w100 Mode.ionian) 0]
  rw [div_lt_div_iff_of_pos_right (by norm_num : (0:ℝ) < 14400), Int.cast_lt]
  exact (by decide : ∀ s : Fin 12, s ≠ 0 →
    iP Mode.ionian (w100 Mode.ionian) s < iP Mode.ionian (w100 Mode.ionian) 0) r hr

/-- The overall best estimate for the ionian input is the ionian entry. -/
theorem best_estimate_xIon :
    best_estimate xIon = estimateZ Mode.ionian (zscore xIon) := by
  unfold best_estimate sorted_estimates sortedEstimatesZ
  refine insertionSort_headI_of_strict_max _ _ ?_ ?_
  · exact List.mem_map_of_mem _ (by decide : Mode.ionian ∈ modeList)
  · intro est hmem hne
    obtain ⟨m, hm, hrfl⟩ := List.mem_map.mp hmem
    by_cases hmi : m = Mode.ionian
    · exact absurd (by rw [← hrfl, hmi]) hne
    · rw [← hrfl]
      show coefficients m xIon (best_key_idx m xIon)
          < coefficients Mode.ionian xIon (best_key_idx Mode.ionian xIon)
      rw [show best_key_idx Mode.ionian xIon = (0 : Fin 12) from by
        rw [best_key_idx_xIon]; decide]
      exact xIon_cross_dominance m hmi

/-- Claim C6 (confirmed).  On input exactly equal to the ionian reference
weight vector, the overall best estimate has mode `"ionian"`, display mode
`"major"`, key index 0 and key name `"C"`, and the ionian/tonic-C candidate
strictly out-correlates every other (mode, key) candidate. -/
theorem ionian_input_best_estimate :
    (best_estimate (wR Mode.ionian)).mode = "ionian" ∧
      (best_estimate (wR Mode.ionian)).modeSimple = "major" ∧
      (best_estimate (wR Mode.ionian)).key_index = 0 ∧
      (best_estimate (wR Mode.ionian)).key = "C" ∧
      ∀ (m : Mode) (r : Fin 12), m ≠ Mode.ionian ∨ r ≠ 0 →
        coefficients m (wR Mode.ionian) r
          < coefficients Mode.ionian (wR Mode.ionian) 0 := by
  have hbz : best_estimate (wR Mode.ionian) = estimateZ Mode.ionian (zscore xIon) := by
    unfold best_estimate sorted_estimates
    rw [zscore_wR_ionian]
    exact best_estimate_xIon
  have hkey : argmax12 (coefficientsZ Mode.ionian (zscore xIon)) = (0 : Fin 12) := by
    rw [show argmax12 (coefficientsZ Mode.ionian (zscore xIon))
        = best_key_idx Mode.ionian xIon from rfl]
    rw [best_key_idx_xIon]
    decide
  have hcoefx : ∀ (m : Mode) (r : Fin 12),
      coefficients m (wR Mode.ionian) r = coefficients m xIon r := by
    intro m r
    unfold coefficients
    rw [zscore_wR_ionian]
  refine ⟨?_, ?_, ?_, ?_, ?_⟩
  · rw [hbz]; rfl
  · rw [hbz]; rfl
  · rw [hbz]
    show (argmax12 (coefficientsZ Mode.ionian (zscore xIon))).val = 0
    rw [hkey]
    rfl
  · rw [hbz]
    show note_names_simple (argmax12 (coefficientsZ Mode.ionian (zscore xIon))) = "C"
    rw [hkey]
    rfl
  · intro m r hmr
    rw [hcoefx m r, hcoefx Mode.ionian 0]
    by_cases hmi : m = Mode.ionian
    · subst hmi
      rcases hmr with h | h
      · exact absurd rfl h
      · exact xIon_ionian_unique_max r h
    · calc coefficients m xIon r
          ≤ coefficients m xIon (best_key_idx m xIon) :=
            argmax12_le (coefficients m xIon) r
      _ < coefficients Mode.ionian xIon 0 := xIon_cross_dominance m hmi

theorem ionian_input_best_estimate_witness :
    (Mode.dorian ≠ Mode.ionian ∨ (0 : Fin 12) ≠ 0) ∧
      coefficients Mode.dorian (wR Mode.ionian) 0
        < coefficients Mode.ionian (wR Mode.ionian) 0 :=
  ⟨Or.inl (by decide),
    ionian_input_best_estimate.2.2.2.2 Mode.dorian 0 (Or.inl (by decide))⟩

/-! ## Degenerate inputs (claims C1 and C7) -/

/-- Claim C1 (code bug).  The spec demands that a zero-variance (flat) chroma
vector make the estimator fail with `FlatChromaVector` and return no
estimate list.  The source has no such check: on the all-ones vector the
standard deviation it divides by is exactly 0 (in `numpy`, the z-scored
vector is all-NaN), no error is raised, and a full 7-entry estimate list is
fabricated and returned. -/
theorem callList_ok (x : List ℝ) (h : x.length = 12) :
    callList x = Except.ok (call fun i => x.get (Fin.cast h.symm i)) :=
  dif_pos h

theorem flat_input_returns_list :
    npStd (fun _ : Fin 12 => (1 : ℝ)) = 0 ∧
      callList (List.replicate 12 (1 : ℝ)) = Except.ok (call fun _ => (1 : ℝ)) ∧
      (call fun _ : Fin 12 => (1 : ℝ)).2.2.length = 7 := by
  have h12 : (List.replicate 12 (1 : ℝ)).length = 12 := by simp
  refine ⟨?_, ?_, ?_⟩
  · unfold npStd npVar npMean
    simp
  · rw [callList_ok _ h12]
    rw [show (fun i : Fin 12 => (List.replicate 12 (1 : ℝ)).get (Fin.cast h12.symm i))
        = fun _ : Fin 12 => (1 : ℝ) from funext fun i => List.get_replicate 1 _]
  · show (List.insertionSort corrGE (all_estimatesZ (zscore fun _ => (1:ℝ)))).length = 7
    rw [(List.perm_insertionSort corrGE _).length_eq]
    rfl

/-- Claim C7 (code bug).  The spec demands a typed `InvalidInputLength` error,
raised before any normalisation, for chroma vectors of length ≠ 12.  The
source performs no length check of its own: `zscore` happily normalises a
vector of any length first, and the call then dies inside the `numpy` dot
product with an untyped shape-mismatch `ValueError` (here: length 11 and
length 13). -/
theorem wrong_length_raises_generic_valueError :
    callList (List.replicate 11 (1 : ℝ)) = Except.error PyError.valueError ∧
      callList (List.replicate 13 (1 : ℝ)) = Except.error PyError.valueError := by
  constructor
  · unfold callList
    rw [dif_neg (by simp : ¬ (List.replicate 11 (1 : ℝ)).length = 12)]
  · unfold callList
    rw [dif_neg (by simp : ¬ (List.replicate 13 (1 : ℝ)).length = 12)]

/-! ## The shared mutable class-level table (claim C2) -/


/-- Each column of the circulant of a z-scored profile is a cyclic rotation
of it, hence already standardised; z-scoring the matrix along axis 0
leaves it unchanged. -/
theorem zscoreMat_circulant (m : Mode) :
    zscoreMat (Matrix.circulant (zscored_weights m))
      = Matrix.circulant (zscored_weights m) := by
  ext i j
  show zscore (fun k => Matrix.circulant (zscored_weights m) k j) i
      = Matrix.circulant (zscored_weights m) i j
  have hcol : (fun k => Matrix.circulant (zscored_weights m) k j)
      = fun k => zscored_weights m (k - j) := rfl
  rw [hcol]
  have hm : npMean (fun k => zscored_weights m (k - j)) = 0 := by
    rw [npMean_rotate]
    exact npMean_zscore (wR m)
  have hv : npVar (fun k => zscored_weights m (k - j)) = 1 := by
    rw [npVar_rotate]
    exact npVar_zscore (by norm_num) (npVar_wR_ne m)
  rw [zscore_of_standardised hm hv]
  rfl

/-- The Frobenius norm of the circulant of a z-scored profile is exactly 12
(each of its 12 columns has squared norm 12). -/
theorem matNorm_circulant_zscored (m : Mode) :
    matNorm (Matrix.circulant (zscored_weights m)) = 12 := by
  unfold matNorm
  have hrow : ∀ i : Fin 12,
      ∑ j, Matrix.circulant (zscored_weights m) i j ^ 2 = 12 := by
    intro i
    have h1 : ∑ j : Fin 12, Matrix.circulant (zscored_weights m) i j ^ 2
        = ∑ j : Fin 12, zscored_weights m j ^ 2 :=
      Fintype.sum_equiv (Equiv.subLeft i) _ _ fun j => rfl
    rw [h1]
    have h2 := sum_zscore_sq (npVar_wR_ne m)
    rw [show zscored_weights m = zscore (wR m) from rfl, h2]
    norm_num
  rw [Finset.sum_congr rfl fun i _ => hrow i]
  simp only [Finset.sum_const, Finset.card_univ, Fintype.card_fin, nsmul_eq_mul]
  rw [show ((12 : ℕ) : ℝ) * 12 = 12 ^ 2 by norm_num]
  exact Real.sqrt_sq (by norm_num)

/-- The norm stored by a first construction. -/
theorem mode_weight_norms_eq_sqrt12 (m : Mode) :
    mode_weight_norms m = Real.sqrt 12 := by
  unfold mode_weight_norms zscored_weights
  rw [vecNorm_zscore (npVar_wR_ne m)]
  norm_num

/-- Claim C2 (code bug).  A single `KeyEstimator()` construction does store,
for every mode, the circulant matrix of the z-scored profile and its norm
`√12`.  But the dicts are shared class-level state mutated in place: a
second construction re-applies `zscore`/`norm`/`circulant` to the
already-transformed data, overwriting every stored norm with 12 (≠ `√12`)
and every 12×12 matrix with a 144×144 one — so the table is *not* left
unchanged by further constructions, contradicting the claimed invariant. -/
theorem second_construction_corrupts_table :
    (∀ m, (postInit initState).weights m = NpVal.mat 12 (weight_table m) ∧
      (postInit initState).norms m = some (mode_weight_norms m)) ∧
      (postInit (postInit initState)).norms Mode.ionian = some 12 ∧
      (postInit initState).norms Mode.ionian = some (Real.sqrt 12) ∧
      postInit (postInit initState) ≠ postInit initState := by
  have hfirst : ∀ m, (postInit initState).weights m = NpVal.mat 12 (weight_table m) ∧
      (postInit initState).norms m = some (mode_weight_norms m) := fun m => ⟨rfl, rfl⟩
  have hsecond : (postInit (postInit initState)).norms Mode.ionian = some 12 := by
    show some (normNp (zscoreNp (circulantNp (zscoreNp
      (NpVal.vec 12 (wR Mode.ionian)))))) = some 12
    show some (matNorm (zscoreMat (Matrix.circulant (zscore (wR Mode.ionian))))) = some 12
    rw [show zscore (wR Mode.ionian) = zscored_weights Mode.ionian from rfl,
      zscoreMat_circulant, matNorm_circulant_zscored]
  have hfirstnorm : (postInit initState).norms Mode.ionian = some (Real.sqrt 12) := by
    rw [(hfirst Mode.ionian).2, mode_weight_norms_eq_sqrt12]
  refine ⟨hfirst, hsecond, hfirstnorm, ?_⟩
  intro heq
  have h1 : (postInit (postInit initState)).norms Mode.ionian
      = (postInit initState).norms Mode.ionian := by rw [heq]
  rw [hsecond, hfirstnorm] at h1
  have h2 : (12 : ℝ) = Real.sqrt 12 := Option.some.inj h1
  have h3 : Real.sqrt 12 ^ 2 = 12 := Real.sq_sqrt (by norm_num)
  rw [← h2] at h3
  norm_num at h3

end KeyEstimator

end
